import Mathlib

/-!
Verification of the poker-equity-calculator repository.

This file shallowly embeds the TypeScript source (card model, 5-card hand
scorer, Texas Hold'em evaluator, the exhaustive calculator's completion
enumeration and tally logic, the Monte Carlo batch loop, input validation,
and the combinatorial-overflow gate) as executable Lean definitions, and
proves or refutes the specification claims about them.

Conventions used throughout:
- JavaScript `Map` iteration order is insertion order; maps keyed by rank or
  suit are embedded as association lists in insertion order.
- `Array.prototype.sort` is stable; the descending-by-rank sort is embedded
  as a stable insertion sort.
- Thrown exceptions become `Except String`.
- JS mutable object state becomes explicit state passing; where object
  aliasing is observable (the Monte Carlo calculator mutates the caller's
  Hand/Board objects in place and later rebinds its own references to fresh
  copies), the embedding tracks the caller-visible object contents and the
  calculator-visible contents separately, with an `aliased` flag recording
  whether they are still the same objects.
-/

namespace PokerEquity

/-- Card suits, in the order the `Suit` enum declares them (s, h, d, c). -/
inductive Suit where
  | spades | hearts | diamonds | clubs
deriving DecidableEq, Repr

/-- Card ranks, in the order the `Rank` enum declares them (2 .. A). -/
inductive Rank where
  | two | three | four | five | six | seven | eight | nine
  | ten | jack | queen | king | ace
deriving DecidableEq, Repr

/-- RANK_VALUES: numeric strength 2..14, Ace high. -/
def rankValue : Rank → ℕ
  | .two => 2 | .three => 3 | .four => 4 | .five => 5 | .six => 6
  | .seven => 7 | .eight => 8 | .nine => 9 | .ten => 10 | .jack => 11
  | .queen => 12 | .king => 13 | .ace => 14

/-- The insertion order of the RANK_VALUES record (2 .. A), used by
`Object.entries(RANK_VALUES)`. -/
def allRanks : List Rank :=
  [.two, .three, .four, .five, .six, .seven, .eight, .nine,
   .ten, .jack, .queen, .king, .ace]

/-- A card: rank and suit, equality by (rank, suit) as in `areCardsEqual`. -/
structure Card where
  rank : Rank
  suit : Suit
deriving DecidableEq, Repr

/-- The rank character of a card string (`'2'`..`'A'`). -/
def rankChar : Rank → String
  | .two => "2" | .three => "3" | .four => "4" | .five => "5" | .six => "6"
  | .seven => "7" | .eight => "8" | .nine => "9" | .ten => "T" | .jack => "J"
  | .queen => "Q" | .king => "K" | .ace => "A"

/-- The suit character of a card string (`'s'`,`'h'`,`'d'`,`'c'`). -/
def suitChar : Suit → String
  | .spades => "s" | .hearts => "h" | .diamonds => "d" | .clubs => "c"

/-- `${card.rank}${card.suit}` as interpolated into error messages. -/
def cardStr (c : Card) : String := rankChar c.rank ++ suitChar c.suit

/-- `isCardInArray` from models/card.ts: membership by rank-and-suit equality. -/
def isCardInArray (card : Card) (cards : List Card) : Bool :=
  cards.any fun c => c.rank == card.rank && c.suit == card.suit

/-- Stable insertion into a list sorted by descending rank value: a card is
placed before the first card of strictly smaller or equal... (it is placed
before the first card whose rank value is at most its own only when strictly
smaller; equal ranks keep their original relative order, as JS sort is stable). -/
def insertByRankDesc (c : Card) : List Card → List Card
  | [] => [c]
  | d :: ds =>
      if rankValue d.rank ≤ rankValue c.rank then c :: d :: ds
      else d :: insertByRankDesc c ds

/-- `sortCardsByRank`: sorts by rank descending (stable, as JS `sort`). -/
def sortCardsByRank (cards : List Card) : List Card :=
  cards.foldr insertByRankDesc []

/-- Insert one card's rank into the `countRanks` association list,
preserving JS `Map` insertion order. -/
def bumpRank (acc : List (Rank × ℕ)) (r : Rank) : List (Rank × ℕ) :=
  match acc with
  | [] => [(r, 1)]
  | (r', n) :: rest =>
      if r' == r then (r', n + 1) :: rest else (r', n) :: bumpRank rest r

/-- `countRanks`: occurrences of each rank, entries in first-seen order. -/
def countRanks (cards : List Card) : List (Rank × ℕ) :=
  cards.foldl (fun acc c => bumpRank acc c.rank) []

/-- Insert one card into the `countSuits` association list (insertion order
of suits; cards of a suit kept in input order). -/
def addToSuitGroup (acc : List (Suit × List Card)) (c : Card) : List (Suit × List Card) :=
  match acc with
  | [] => [(c.suit, [c])]
  | (s, cs) :: rest =>
      if s == c.suit then (s, cs ++ [c]) :: rest else (s, cs) :: addToSuitGroup rest c

/-- `countSuits`: cards grouped by suit, groups in first-seen order. -/
def countSuits (cards : List Card) : List (Suit × List Card) :=
  cards.foldl addToSuitGroup []

/-- `generateCombinations` from utils/card-combinations.ts: all k-subsets,
combinations containing the first element listed before those without it. -/
def generateCombinations : List Card → ℕ → List (List Card)
  | _, 0 => [[]]
  | [], _ + 1 => []
  | first :: rest, k + 1 =>
      if k + 1 > rest.length + 1 then []
      else (generateCombinations rest k).map (first :: ·) ++ generateCombinations rest (k + 1)

/-- `Object.entries(RANK_VALUES).find(([, value]) => value === expected)`:
the rank carrying a given numeric value, if any. -/
def rankOfValue (v : ℕ) : Option Rank :=
  allRanks.find? fun r => rankValue r == v

/-- The inner `for j in 0..4` loop of `findStraight`: collect one card per
expected descending rank value; `none` models the `isStraight = false` break. -/
def straightWindow (sortedCards : List Card) (seenRanks : List Rank) (startVal : ℕ) :
    Option (List Card) :=
  let collected := (List.range 5).foldl
    (fun acc j =>
      match acc with
      | none => none
      | some cs =>
          match rankOfValue (startVal - j) with
          | none => none
          | some r =>
              if seenRanks.contains r then
                match sortedCards.find? (fun c => c.rank == r) with
                | some card => some (cs ++ [card])
                | none => some cs
              else none)
    (some [])
  match collected with
  | some cs => if cs.length == 5 then some cs else none
  | none => none

/-- `findStraight`: a 5-card straight if present; the wheel A-2-3-4-5 is
returned ordered A,5,4,3,2, other straights in descending rank. -/
def findStraight (cards : List Card) : Option (List Card) :=
  if cards.length < 5 then none
  else
    let sortedCards := sortCardsByRank cards
    let uniqueRanks := sortedCards.foldl
      (fun acc c => if acc.contains c.rank then acc else acc ++ [c.rank]) []
    if uniqueRanks.contains Rank.ace ∧ uniqueRanks.contains Rank.five ∧
       uniqueRanks.contains Rank.four ∧ uniqueRanks.contains Rank.three ∧
       uniqueRanks.contains Rank.two then
      some ([Rank.ace, Rank.five, Rank.four, Rank.three, Rank.two].foldl
        (fun acc r =>
          match sortedCards.find? (fun c => c.rank == r) with
          | some card => acc ++ [card]
          | none => acc) [])
    else if uniqueRanks.length < 5 then none
    else
      (List.range (uniqueRanks.length - 5 + 1)).findSome? fun i =>
        straightWindow sortedCards uniqueRanks
          (rankValue ((uniqueRanks.getD i Rank.two)))

/-- `findFlush`: the 5 highest cards of the first suit holding at least 5. -/
def findFlush (cards : List Card) : Option (List Card) :=
  if cards.length < 5 then none
  else
    (countSuits cards).findSome? fun g =>
      if g.2.length ≥ 5 then some ((sortCardsByRank g.2).take 5) else none

/-- `calculateHandValue`: `handRank * 10,000,000` plus the positional
rank values of the cards re-sorted descending, weighted `100^(4-i)`.
Only ever applied to 5-card lists, where `4 - i` never truncates. -/
def calculateHandValue (handRank : ℕ) (cards : List Card) : ℕ :=
  let baseValue := handRank * 10000000
  let sortedCards := sortCardsByRank cards
  baseValue +
    (sortedCards.enum.foldl
      (fun acc p => acc + rankValue p.2.rank * 100 ^ (4 - p.1)) 0)

/-- HandRank.HIGH_CARD. -/
def HIGH_CARD : ℕ := 0
/-- HandRank.PAIR. -/
def PAIR : ℕ := 1
/-- HandRank.TWO_PAIR. -/
def TWO_PAIR : ℕ := 2
/-- HandRank.THREE_OF_A_KIND. -/
def THREE_OF_A_KIND : ℕ := 3
/-- HandRank.STRAIGHT. -/
def STRAIGHT : ℕ := 4
/-- HandRank.FLUSH. -/
def FLUSH : ℕ := 5
/-- HandRank.FULL_HOUSE. -/
def FULL_HOUSE : ℕ := 6
/-- HandRank.FOUR_OF_A_KIND. -/
def FOUR_OF_A_KIND : ℕ := 7
/-- HandRank.STRAIGHT_FLUSH. -/
def STRAIGHT_FLUSH : ℕ := 8
/-- HandRank.ROYAL_FLUSH. -/
def ROYAL_FLUSH : ℕ := 9

/-- HAND_RANK_NAMES lookup (the `default` case of `generateHandDescription`). -/
def handRankNameOf (r : ℕ) : String :=
  if r == 0 then "High Card" else if r == 1 then "Pair"
  else if r == 2 then "Two Pair" else if r == 3 then "Three of a Kind"
  else if r == 4 then "Straight" else if r == 5 then "Flush"
  else if r == 6 then "Full House" else if r == 7 then "Four of a Kind"
  else if r == 8 then "Straight Flush" else if r == 9 then "Royal Flush"
  else ""

/-- An evaluated hand: category, tie-break value, human-readable description. -/
structure EvaluatedHand where
  rank : ℕ
  value : ℕ
  description : String
deriving DecidableEq, Repr

deriving instance DecidableEq for Except

/-- The `rankNames` (plural) record of `generateHandDescription`. -/
def rankPlural : Rank → String
  | .two => "Twos" | .three => "Threes" | .four => "Fours" | .five => "Fives"
  | .six => "Sixes" | .seven => "Sevens" | .eight => "Eights" | .nine => "Nines"
  | .ten => "Tens" | .jack => "Jacks" | .queen => "Queens" | .king => "Kings"
  | .ace => "Aces"

/-- The `singleRankNames` record of `generateHandDescription`. -/
def rankSingle : Rank → String
  | .two => "Two" | .three => "Three" | .four => "Four" | .five => "Five"
  | .six => "Six" | .seven => "Seven" | .eight => "Eight" | .nine => "Nine"
  | .ten => "Ten" | .jack => "Jack" | .queen => "Queen" | .king => "King"
  | .ace => "Ace"

/-- A placeholder card; only reached by out-of-range indexing that the
source never performs (its value cards always have 5 entries). -/
def dummyCard : Card := ⟨Rank.two, Suit.spades⟩

/-- The last rank whose count equals `n`, as computed by the `for ... of
rankCounts.entries()` loops that keep overwriting without `break`. -/
def lastRankWithCount (rc : List (Rank × ℕ)) (n : ℕ) : Option Rank :=
  rc.foldl (fun acc p => if p.2 == n then some p.1 else acc) none

/-- The first rank whose count equals `n`, as computed by the loops that
`break` on the first hit. -/
def firstRankWithCount (rc : List (Rank × ℕ)) (n : ℕ) : Option Rank :=
  (rc.find? fun p => p.2 == n).map (·.1)

/-- Stable insertion sort of ranks, descending by RANK_VALUES (the
two-pair description's `pairs.sort`). -/
def insertRankDesc (r : Rank) : List Rank → List Rank
  | [] => [r]
  | s :: ss => if rankValue s ≤ rankValue r then r :: s :: ss else s :: insertRankDesc r ss

/-- `generateHandDescription` from evaluators/hand-value.ts. -/
def generateHandDescription (handRank : ℕ) (cards : List Card) : String :=
  let rankCounts := countRanks cards
  let sortedCards := sortCardsByRank cards
  if handRank == ROYAL_FLUSH then "Royal Flush"
  else if handRank == STRAIGHT_FLUSH then
    "Straight Flush, " ++ rankSingle (sortedCards.getD 0 dummyCard).rank ++ " high"
  else if handRank == FOUR_OF_A_KIND then
    match lastRankWithCount rankCounts 4, lastRankWithCount rankCounts 1 with
    | some q, some k =>
        "Four of a Kind, " ++ rankPlural q ++ " with " ++ rankSingle k ++ " kicker"
    | _, _ => "Four of a Kind"
  else if handRank == FULL_HOUSE then
    match lastRankWithCount rankCounts 3, lastRankWithCount rankCounts 2 with
    | some t, some p => "Full House, " ++ rankPlural t ++ " full of " ++ rankPlural p
    | _, _ => "Full House"
  else if handRank == FLUSH then
    "Flush, " ++ rankSingle (sortedCards.getD 0 dummyCard).rank ++ " high"
  else if handRank == STRAIGHT then
    "Straight, " ++ rankSingle (sortedCards.getD 0 dummyCard).rank ++ " high"
  else if handRank == THREE_OF_A_KIND then
    match lastRankWithCount rankCounts 3 with
    | some t => "Three of a Kind, " ++ rankPlural t
    | none => "Three of a Kind"
  else if handRank == TWO_PAIR then
    let pairs := (rankCounts.filter fun p => p.2 == 2).map (·.1)
    let pairsSorted := pairs.foldr insertRankDesc []
    if pairs.length ≥ 2 then
      "Two Pair, " ++ rankPlural (pairsSorted.getD 0 Rank.two) ++ " and " ++
        rankPlural (pairsSorted.getD 1 Rank.two)
    else "Two Pair"
  else if handRank == PAIR then
    match lastRankWithCount rankCounts 2 with
    | some p => "Pair of " ++ rankPlural p
    | none => "Pair"
  else if handRank == HIGH_CARD then
    "High Card, " ++ rankSingle (sortedCards.getD 0 dummyCard).rank
  else handRankNameOf handRank

/-- Index of the first card of a given rank in a sorted card list
(`sortedCards.indexOf(sortedCards.find(card => card.rank === r))`). -/
def posOfRank (sortedCards : List Card) (r : Rank) : ℕ :=
  sortedCards.findIdx fun c => c.rank == r

/-- Stable insertion sort of the two-pair ranks, ascending by their first
position in the descending-sorted cards (i.e. descending by rank). -/
def insertByPos (sortedCards : List Card) (r : Rank) : List Rank → List Rank
  | [] => [r]
  | s :: ss =>
      if posOfRank sortedCards s ≤ posOfRank sortedCards r then
        s :: insertByPos sortedCards r ss
      else r :: s :: ss

/-- The category and category-specifically ordered value cards chosen by
`evaluateSingleHand`'s branch chain, for a 5-card hand. -/
def classifyHand (cards : List Card) : ℕ × List Card :=
  let sortedCards := sortCardsByRank cards
  let rankCounts := countRanks cards
  let flush := findFlush cards
  let straight := findStraight cards
  let counts := rankCounts.map (·.2)
  if flush.isSome ∧ (sortedCards.getD 0 dummyCard).rank == Rank.ace ∧
     (sortedCards.getD 1 dummyCard).rank == Rank.king ∧
     (sortedCards.getD 2 dummyCard).rank == Rank.queen ∧
     (sortedCards.getD 3 dummyCard).rank == Rank.jack ∧
     (sortedCards.getD 4 dummyCard).rank == Rank.ten then
    (ROYAL_FLUSH, sortedCards)
  else if flush.isSome ∧ straight.isSome then
    (STRAIGHT_FLUSH, straight.getD [])
  else if counts.contains 4 then
    let quadRank := firstRankWithCount rankCounts 4
    (FOUR_OF_A_KIND,
      (sortedCards.filter fun c => some c.rank == quadRank) ++
        (sortedCards.filter fun c => ¬ some c.rank == quadRank))
  else if counts.contains 3 ∧ counts.contains 2 then
    let tripRank := lastRankWithCount rankCounts 3
    let pairRank := lastRankWithCount rankCounts 2
    (FULL_HOUSE,
      (sortedCards.filter fun c => some c.rank == tripRank) ++
        (sortedCards.filter fun c => some c.rank == pairRank))
  else if flush.isSome then
    (FLUSH, flush.getD [])
  else if straight.isSome then
    (STRAIGHT, straight.getD [])
  else if counts.contains 3 then
    let tripRank := firstRankWithCount rankCounts 3
    (THREE_OF_A_KIND,
      (sortedCards.filter fun c => some c.rank == tripRank) ++
        (sortedCards.filter fun c => ¬ some c.rank == tripRank))
  else if (counts.filter fun n => n == 2).length == 2 then
    let pairRanks := (rankCounts.filter fun p => p.2 == 2).map (·.1)
    let ps := pairRanks.foldr (insertByPos sortedCards) []
    let p0 := ps.getD 0 Rank.two
    let p1 := ps.getD 1 Rank.two
    (TWO_PAIR,
      (sortedCards.filter fun c => c.rank == p0) ++
        (sortedCards.filter fun c => c.rank == p1) ++
        (sortedCards.filter fun c => ¬ c.rank == p0 ∧ ¬ c.rank == p1))
  else if counts.contains 2 then
    let pairRank := firstRankWithCount rankCounts 2
    (PAIR,
      (sortedCards.filter fun c => some c.rank == pairRank) ++
        (sortedCards.filter fun c => ¬ some c.rank == pairRank))
  else
    (HIGH_CARD, sortedCards)

/-- `evaluateSingleHand` from evaluators/holdem.ts: score one 5-card hand. -/
def evaluateSingleHand (cards : List Card) : Except String EvaluatedHand :=
  if cards.length ≠ 5 then
    .error ("Exactly 5 cards required for evaluation, got " ++ toString cards.length)
  else
    let hr := classifyHand cards
    .ok ⟨hr.1, calculateHandValue hr.1 hr.2, generateHandDescription hr.1 hr.2⟩

/-- `HoldemEvaluator.evaluate`: best of all 5-card combinations of
hole + board cards, by strict comparison on the tie-break value. -/
def holdemEvaluate (holeCards boardCards : List Card) : Except String EvaluatedHand :=
  let allCards := holeCards ++ boardCards
  if allCards.length < 5 then
    .error ("Not enough cards to evaluate: got " ++ toString allCards.length ++
      ", need at least 5")
  else
    (generateCombinations allCards 5).foldlM
      (fun bestHand combo => do
        let evaluated ← evaluateSingleHand combo
        pure (if evaluated.value > bestHand.value then evaluated else bestHand))
      ⟨HIGH_CARD, 0, ""⟩

/-! ### Outcome tally and equity aggregation (§4.4, shared logic)

`evaluateAndUpdateEquity` evaluates all hands, finds the set of winners by
maximum tie-break value and bumps win / tie counts.  The per-category
occurrence bookkeeping does not influence wins, ties or equity and is not
tracked here. -/

/-- Per-player win / tie counters of a `PlayerEquity` record. -/
structure PlayerTally where
  winsCount : ℕ
  tiesCount : ℕ
deriving DecidableEq, Repr

/-- The winner-finding loop of `evaluateAndUpdateEquity`: indices attaining
the running maximum, starting from `bestHandValue = -1`. -/
def winnersLoop : List ℕ → ℕ → Int → List ℕ → List ℕ
  | [], _, _, winners => winners
  | v :: vs, i, best, winners =>
      if (v : Int) > best then winnersLoop vs (i + 1) (v : Int) [i]
      else if (v : Int) == best then winnersLoop vs (i + 1) best (winners ++ [i])
      else winnersLoop vs (i + 1) best winners

/-- The scenario's winners: players whose hand value equals the maximum. -/
def winnersOf (values : List ℕ) : List ℕ :=
  winnersLoop values 0 (-1) []

/-- Increment the wins counter of the player at an index. -/
def bumpWins : List PlayerTally → ℕ → List PlayerTally
  | [], _ => []
  | t :: ts, 0 => ⟨t.winsCount + 1, t.tiesCount⟩ :: ts
  | t :: ts, i + 1 => t :: bumpWins ts i

/-- Increment the ties counter of the player at an index. -/
def bumpTies : List PlayerTally → ℕ → List PlayerTally
  | [], _ => []
  | t :: ts, 0 => ⟨t.winsCount, t.tiesCount + 1⟩ :: ts
  | t :: ts, i + 1 => t :: bumpTies ts i

/-- The win / tie update of `evaluateAndUpdateEquity` for one scenario,
given the players' evaluated hand values. -/
def updateTallies (tallies : List PlayerTally) (values : List ℕ) : List PlayerTally :=
  if (winnersOf values).length == 1 then bumpWins tallies ((winnersOf values).getD 0 0)
  else (winnersOf values).foldl bumpTies tallies

/-- Fold the §4.4 tally over a list of scenarios (each given by the players'
hand values), starting from `createInitialPlayerEquities`. -/
def tallyScenarios (scenarios : List (List ℕ)) (n : ℕ) : List PlayerTally :=
  scenarios.foldl updateTallies (List.replicate n ⟨0, 0⟩)

/-- Final aggregation: `equity = (winsCount + tiesCount / 2) / totalHands`. -/
def equitiesOf (tallies : List PlayerTally) (totalHands : ℕ) : List ℚ :=
  tallies.map fun t => ((t.winsCount : ℚ) + (t.tiesCount : ℚ) / 2) / (totalHands : ℚ)

/-- `ExhaustiveCalculator.calculate` on fully specified input (every hand
complete and a complete board): one scenario is evaluated, tallied, and
aggregated with `totalHands = 1`. -/
def exhaustiveCompleteEquities (hands : List (List Card)) (board : List Card) :
    Except String (List ℚ) := do
  let evals ← hands.mapM fun h => holdemEvaluate h board
  let tallies := updateTallies (List.replicate hands.length ⟨0, 0⟩) (evals.map (·.value))
  pure (equitiesOf tallies 1)

/-! ### Deck and the exhaustive calculator's completion enumeration -/

/-- The 52-card deck in construction order: for each suit (s, h, d, c) the
ranks 2 .. A. -/
def fullDeck : List Card :=
  [Suit.spades, Suit.hearts, Suit.diamonds, Suit.clubs].flatMap fun s =>
    allRanks.map fun r => ⟨r, s⟩

/-- `Deck.removeCards` applied to a fresh deck: the remaining cards, in
deck order. -/
def deckWithout (used : List Card) : List Card :=
  fullDeck.filter fun card => ¬ used.any fun c => c.rank == card.rank && c.suit == card.suit

/-- `getUsedCards`: board cards, then dead cards, then all hands' cards. -/
def getUsedCards (hands : List (List Card)) (board deadCards : List Card) : List Card :=
  board ++ deadCards ++ hands.flatten

/-- `cardsNeededForHand` for Texas Hold'em (max hole cards 2). -/
def cardsNeededForHand (hand : List Card) : ℕ := 2 - hand.length

/-- `cardsNeededForBoard` for Texas Hold'em (max board cards 5). -/
def cardsNeededForBoard (board : List Card) : ℕ := 5 - board.length

/-- The mutable hand/board state the exhaustive calculator operates on. -/
structure CalcState where
  hands : List (List Card)
  board : List Card
deriving DecidableEq, Repr

/-- Replace the element at an index. -/
def setAt (l : List (List Card)) (i : ℕ) (x : List Card) : List (List Card) :=
  l.set i x

/-- `applyCompletions`: snapshots the hands/board AS THEY CURRENTLY ARE
(the source's `originalHands` is taken at call time, after any earlier
scenario's mutations), appends each incomplete hand's completion to that
snapshot, and appends the board completion to the current board.  There is
no inverse operation anywhere in the calculator. -/
def applyCompletions (incompleteIdxs : List ℕ) (handCompletions : List (List Card))
    (boardCompletion : List Card) (st : CalcState) : CalcState :=
  let originalHands := st.hands
  let originalBoard := st.board
  let hands := (incompleteIdxs.zip handCompletions).foldl
    (fun hs p => setAt hs p.1 (originalHands.getD p.1 [] ++ p.2)) st.hands
  { hands := hands, board := originalBoard ++ boardCompletion }

/-- The duplicate-card conflict test of `evaluateAllCombinations`: does the
candidate completion share a card with any previously assigned completion? -/
def hasConflict (completion : List Card) (previous : List (List Card)) : Bool :=
  previous.any fun prev =>
    completion.any fun card =>
      prev.any fun pc => pc.rank == card.rank && pc.suit == card.suit

/-- The conflict-filtered cross product of the per-hand completion lists, in
the depth-first order `evaluateAllCombinations` visits them: completions of
hand 0 outermost, each candidate checked only against the completions
already chosen for earlier hands. -/
def enumHandChoices (handCompletions : List (List (List Card))) : List (List (List Card)) :=
  handCompletions.foldl
    (fun partials completions =>
      partials.flatMap fun chosen =>
        (completions.filter fun c => hasConflict c chosen == false).map
          fun c => chosen ++ [c])
    [[]]

/-- All (hand completions, board completion) scenarios in evaluation order:
for each conflict-free choice of hand completions, every board completion.
Board completions are not tested against the hand completions. -/
def enumScenarios (handChoices : List (List (List Card)))
    (boardCompletions : List (List Card)) : List (List (List Card) × List Card) :=
  handChoices.flatMap fun choice => boardCompletions.map fun bc => (choice, bc)

/-- Run the scenarios in order against the calculator state, recording the
state visible to `evaluateAndUpdateEquity` at each evaluation.  Mirrors the
base case of `evaluateAllCombinations`: apply completions, evaluate, and
continue with the state as `applyCompletions` left it. -/
def runScenarios (incompleteIdxs : List ℕ)
    (scenarios : List (List (List Card) × List Card)) (st : CalcState) :
    CalcState × List CalcState :=
  scenarios.foldl
    (fun acc sc =>
      let st' := applyCompletions incompleteIdxs sc.1 sc.2 acc.1
      (st', acc.2 ++ [st']))
    (st, [])

/-- The dealing phase of `ExhaustiveCalculator.calculate` for Texas Hold'em
(the non-trivial branch where at least one hand or the board is incomplete):
build the remaining deck, enumerate per-hand and board completions, and run
every conflict-free scenario, returning the final state and the state at
each evaluation. -/
def exhaustiveEnumerate (hands : List (List Card)) (board deadCards : List Card) :
    CalcState × List CalcState :=
  let remainingCards := deckWithout (getUsedCards hands board deadCards)
  let incompleteHands :=
    (hands.enum.map fun p => (p.1, cardsNeededForHand p.2)).filter fun q => q.2 > 0
  let boardCardsNeeded := cardsNeededForBoard board
  let handCompletions := incompleteHands.map fun q =>
    let handCards := hands.getD q.1 []
    let availableCards := remainingCards.filter fun card =>
      ¬ handCards.any fun hc => hc.rank == card.rank && hc.suit == card.suit
    generateCombinations availableCards q.2
  let boardCompletions :=
    if boardCardsNeeded > 0 then generateCombinations remainingCards boardCardsNeeded
    else [[]]
  runScenarios (incompleteHands.map (·.1))
    (enumScenarios (enumHandChoices handCompletions) boardCompletions)
    ⟨hands, board⟩

/-! ### Monte Carlo batch loop (`MonteCarloCalculator.runSimulationBatch`)

Each iteration copies the current hand/board card arrays, mutates the Hand
and Board objects `this.hands` / `this.board` point to by appending dealt
cards, evaluates, and then REBINDS `this.hands` / `this.board` to the
copies.  On the first iteration those objects are still the caller-supplied
ones, so the caller's objects keep the first iteration's dealt cards; from
the second iteration on only internal copies are touched.  The shuffled
deck of an iteration is abstracted as an input card list consumed from the
front by `deck.deal`. -/

/-- Observable state of the Monte Carlo loop: the card contents of the
caller-supplied Hand/Board objects, the contents of the objects
`this.hands` / `this.board` currently reference, and whether those are
still the caller's objects. -/
structure MCState where
  callerHands : List (List Card)
  callerBoard : List Card
  thisHands : List (List Card)
  thisBoard : List Card
  aliased : Bool
deriving DecidableEq, Repr

/-- The per-hand dealing loop of one iteration: complete each hand needing
cards from the front of the shuffled deck, returning the completed hands
and the rest of the deck. -/
def dealToHands (originalHands : List (List Card)) (deck : List Card) :
    List (List Card) × List Card :=
  originalHands.foldl
    (fun acc h =>
      let cardsNeeded := cardsNeededForHand h
      (acc.1 ++ [h ++ acc.2.take cardsNeeded], acc.2.drop cardsNeeded))
    ([], deck)

/-- The hand/board contents evaluated in one iteration, as a function of the
iteration's starting contents and its shuffled deck. -/
def mcDealtView (hands : List (List Card)) (board : List Card) (deck : List Card) :
    List (List Card) × List Card :=
  let dealt := dealToHands hands deck
  (dealt.1, board ++ dealt.2.take (cardsNeededForBoard board))

/-- One Monte Carlo iteration: snapshot, deal (mutating the referenced
objects, hence the caller's objects while still aliased), evaluate, and
restore by rebinding `this.hands` / `this.board` to the snapshot copies.
Returns the next state and the hand/board contents that were evaluated. -/
def mcIteration (st : MCState) (deck : List Card) :
    MCState × (List (List Card) × List Card) :=
  let originalHands := st.thisHands
  let originalBoard := st.thisBoard
  let view := mcDealtView originalHands originalBoard deck
  let callerHands := if st.aliased then view.1 else st.callerHands
  let callerBoard := if st.aliased then view.2 else st.callerBoard
  (⟨callerHands, callerBoard, originalHands, originalBoard, false⟩, view)

/-- One step of the batch loop: run an iteration and record what it
evaluated. -/
def mcStep (acc : MCState × List (List (List Card) × List Card)) (deck : List Card) :
    MCState × List (List (List Card) × List Card) :=
  let step := mcIteration acc.1 deck
  (step.1, acc.2 ++ [step.2])

/-- A batch of iterations, returning the final state and each iteration's
evaluated hand/board contents. -/
def mcRunBatch (st : MCState) (decks : List (List Card)) :
    MCState × List (List (List Card) × List Card) :=
  decks.foldl mcStep (st, [])

/-! ### Calculation options and the combinatorial-overflow gate -/

/-- The calculation options relevant to the exhaustive gate, as defaulted by
the `EquityCalculator` constructor. -/
structure CalculationOptions where
  forceExhaustive : Bool := false
  maxExhaustiveCombinations : ℕ := 25000
deriving DecidableEq, Repr

/-- `this.options.maxExhaustiveCombinations || 25000`: the JS `||` falls
back to 25000 exactly when the stored value is falsy (0). -/
def effectiveMaxCombinations (o : CalculationOptions) : ℕ :=
  if o.maxExhaustiveCombinations == 0 then 25000 else o.maxExhaustiveCombinations

/-- The combinatorial-overflow error message, naming the actual count. -/
def overflowMsg (totalCombinations : ℕ) : String :=
  "Too many combinations for exhaustive calculation: " ++ toString totalCombinations ++
    ". Use Monte Carlo simulation instead or increase maxExhaustiveCombinations."

/-- The overflow gate of `ExhaustiveCalculator.calculate` together with the
`isExact` flag of the result it returns when it proceeds: the calculation
runs iff `forceExhaustive` is set or the estimated combination count is
within the effective ceiling, and every returned result carries
`isExact = true`. -/
def exhaustiveGateResult (totalCombinations : ℕ) (o : CalculationOptions) :
    Except String Bool :=
  if o.forceExhaustive = true ∨ totalCombinations ≤ effectiveMaxCombinations o then
    .ok true
  else .error (overflowMsg totalCombinations)

/-! ### Constructor-time validation (`EquityCalculator.validateHands`) -/

/-- The board-card loop: each board card must not be dead, must not appear
in any hand, and must not repeat; accepted cards accumulate in `seen`. -/
def validateBoardLoop (hands : List (List Card)) (deadCards : List Card) :
    List Card → List Card → Except String (List Card)
  | [], seen => .ok seen
  | card :: rest, seen =>
      if isCardInArray card deadCards then
        .error ("Board card " ++ cardStr card ++ " is also marked as a dead card")
      else if hands.any (fun hand => isCardInArray card hand) then
        .error ("Board card " ++ cardStr card ++ " also appears in a player's hand")
      else if isCardInArray card seen then
        .error ("Duplicate board card: " ++ cardStr card)
      else validateBoardLoop hands deadCards rest (seen ++ [card])

/-- The dead-card loop: each dead card must not appear in any hand and must
not repeat an already-seen card. -/
def validateDeadLoop (hands : List (List Card)) :
    List Card → List Card → Except String (List Card)
  | [], seen => .ok seen
  | card :: rest, seen =>
      if hands.any (fun hand => isCardInArray card hand) then
        .error ("Dead card " ++ cardStr card ++ " also appears in a player's hand")
      else if isCardInArray card seen then
        .error ("Duplicate dead card: " ++ cardStr card)
      else validateDeadLoop hands rest (seen ++ [card])

/-- The per-hand card loop: each hand card must not repeat any seen card. -/
def validateHandCardsLoop : List Card → List Card → Except String (List Card)
  | [], seen => .ok seen
  | card :: rest, seen =>
      if isCardInArray card seen then
        .error ("Card " ++ cardStr card ++ " appears in multiple hands")
      else validateHandCardsLoop rest (seen ++ [card])

/-- The outer hands loop of `validateHands`. -/
def validateHandsLoop : List (List Card) → List Card → Except String (List Card)
  | [], seen => .ok seen
  | hand :: rest, seen => do
      let seen' ← validateHandCardsLoop hand seen
      validateHandsLoop rest seen'

/-- `EquityCalculator.validateHands`: board loop, then dead-card loop, then
hands loop, sharing one `seenCards` accumulator. -/
def validateHands (hands : List (List Card)) (board deadCards : List Card) :
    Except String Unit := do
  let seen1 ← validateBoardLoop hands deadCards board []
  let seen2 ← validateDeadLoop hands deadCards seen1
  let _ ← validateHandsLoop hands seen2
  pure ()

/-- The calculator as constructed: the `EquityCalculator` constructor stores
its inputs and runs `validateHands` before anything else; a validation
failure means no calculator is produced and no evaluation has run. -/
structure EquityCalculator where
  hands : List (List Card)
  board : List Card
  deadCards : List Card
deriving DecidableEq, Repr

/-- `new EquityCalculator(hands, board, deadCards)` as a fallible value. -/
def mkEquityCalculator (hands : List (List Card)) (board deadCards : List Card) :
    Except String EquityCalculator := do
  let _ ← validateHands hands board deadCards
  pure ⟨hands, board, deadCards⟩

/-! ### Concrete inputs used by the theorems -/

/-- Ace of spades. -/
def cardAs : Card := ⟨.ace, .spades⟩
/-- King of spades. -/
def cardKs : Card := ⟨.king, .spades⟩
/-- Queen of hearts. -/
def cardQh : Card := ⟨.queen, .hearts⟩
/-- Jack of hearts. -/
def cardJh : Card := ⟨.jack, .hearts⟩
/-- Ten of spades. -/
def cardTs : Card := ⟨.ten, .spades⟩
/-- Nine of spades. -/
def card9s : Card := ⟨.nine, .spades⟩
/-- King of hearts. -/
def cardKh : Card := ⟨.king, .hearts⟩
/-- King of diamonds. -/
def cardKd : Card := ⟨.king, .diamonds⟩
/-- Ace of hearts. -/
def cardAh : Card := ⟨.ace, .hearts⟩
/-- Ace of diamonds. -/
def cardAd : Card := ⟨.ace, .diamonds⟩

/-- The three complete hands of the three-way-tie scenario: each pairs an
ace and a king of a private suit. -/
def tieHands : List (List Card) :=
  [[cardAs, cardKs], [cardAh, cardKh], [cardAd, cardKd]]

/-- A complete board on which all three `tieHands` play the board's wheel
straight (each hand's ace completes A-2-3-4-5). -/
def tieBoard : List Card :=
  [⟨.two, .spades⟩, ⟨.three, .spades⟩, ⟨.four, .hearts⟩, ⟨.five, .clubs⟩, ⟨.seven, .diamonds⟩]

/-- Input of the restoration counterexample: two complete hands. -/
def c4hands : List (List Card) := [[cardAs, cardKs], [cardQh, cardJh]]

/-- Input of the restoration counterexample: a 3-card board (2 cards missing). -/
def c4board : List Card := [cardTs, card9s, ⟨.two, .hearts⟩]

/-- Dead cards leaving exactly 2d, 3d, 4d, 5d available, so the board has
C(4,2) = 6 completions. -/
def c4dead : List Card :=
  fullDeck.filter fun c =>
    ¬ c ∈ c4hands.flatten ∧ ¬ c ∈ c4board ∧
    ¬ c ∈ ([⟨.two, .diamonds⟩, ⟨.three, .diamonds⟩, ⟨.four, .diamonds⟩,
            ⟨.five, .diamonds⟩] : List Card)

/-- Input of the duplicate-assignment counterexample: one complete hand and
one hand missing a card. -/
def c6hands : List (List Card) := [[cardAs, cardKs], [cardQh]]

/-- Input of the duplicate-assignment counterexample: a 4-card board. -/
def c6board : List Card :=
  [⟨.two, .hearts⟩, ⟨.three, .hearts⟩, ⟨.four, .hearts⟩, ⟨.five, .hearts⟩]

/-- Dead cards leaving exactly 2d, 3d, 4d, 5d, 6d available to deal. -/
def c6dead : List Card :=
  fullDeck.filter fun c =>
    ¬ c ∈ c6hands.flatten ∧ ¬ c ∈ c6board ∧
    ¬ c ∈ ([⟨.two, .diamonds⟩, ⟨.three, .diamonds⟩, ⟨.four, .diamonds⟩,
            ⟨.five, .diamonds⟩, ⟨.six, .diamonds⟩] : List Card)

/-- Initial Monte Carlo state: the calculator's references still point at
the caller-supplied Hand/Board objects (hand 2 and the board incomplete). -/
def c5init : MCState :=
  ⟨[[cardAs, cardKs], [cardQh]], [⟨.two, .hearts⟩, ⟨.three, .hearts⟩, ⟨.four, .hearts⟩],
   [[cardAs, cardKs], [cardQh]], [⟨.two, .hearts⟩, ⟨.three, .hearts⟩, ⟨.four, .hearts⟩],
   true⟩

/-- Two iterations' shuffled decks for the Monte Carlo counterexample. -/
def c5decks : List (List Card) :=
  [[⟨.two, .diamonds⟩, ⟨.three, .diamonds⟩, ⟨.four, .diamonds⟩],
   [⟨.five, .diamonds⟩, ⟨.six, .diamonds⟩, ⟨.seven, .diamonds⟩]]

/-- A card appearing in more than one of {two different hands, a hand and
the board, a hand and the dead cards, the board and the dead cards}. -/
def crossDup (hands : List (List Card)) (board deadCards : List Card) : Prop :=
  (∃ c ∈ board, c ∈ deadCards) ∨
  (∃ c ∈ board, ∃ h ∈ hands, c ∈ h) ∨
  (∃ c ∈ deadCards, ∃ h ∈ hands, c ∈ h) ∨
  (∃ i ∈ List.range hands.length, ∃ j ∈ List.range hands.length,
    i < j ∧ ∃ c ∈ hands.getD i [], c ∈ hands.getD j [])

/-- The error string is one of `validateHands`' composition messages,
naming the card. -/
def compositionMsg (c : Card) (s : String) : Prop :=
  s = "Board card " ++ cardStr c ++ " is also marked as a dead card" ∨
  s = "Board card " ++ cardStr c ++ " also appears in a player's hand" ∨
  s = "Duplicate board card: " ++ cardStr c ∨
  s = "Dead card " ++ cardStr c ++ " also appears in a player's hand" ∨
  s = "Duplicate dead card: " ++ cardStr c ∨
  s = "Card " ++ cardStr c ++ " appears in multiple hands"

/-- The quantity `Σ_players (winsCount + tiesCount / 2)` whose evolution
under the §4.4 tally determines the equity sum. -/
def tallySum (tallies : List PlayerTally) : ℚ :=
  (tallies.map fun t => (t.winsCount : ℚ) + (t.tiesCount : ℚ) / 2).sum

/-! ### Supporting lemmas -/

theorem mcIteration_fst_thisHands (st : MCState) (deck : List Card) :
    (mcIteration st deck).1.thisHands = st.thisHands := rfl

theorem mcIteration_fst_thisBoard (st : MCState) (deck : List Card) :
    (mcIteration st deck).1.thisBoard = st.thisBoard := rfl

theorem mcIteration_snd (st : MCState) (deck : List Card) :
    (mcIteration st deck).2 = mcDealtView st.thisHands st.thisBoard deck := rfl

theorem mcFold_spec (decks : List (List Card)) :
    ∀ (st : MCState) (evs : List (List (List Card) × List Card)),
      (decks.foldl mcStep (st, evs)).1.thisHands = st.thisHands ∧
      (decks.foldl mcStep (st, evs)).1.thisBoard = st.thisBoard ∧
      (decks.foldl mcStep (st, evs)).2 =
        evs ++ decks.map (mcDealtView st.thisHands st.thisBoard) := by
  induction decks with
  | nil => intro st evs; refine ⟨rfl, rfl, by simp⟩
  | cons deck rest ih =>
    intro st evs
    have hstep : mcStep (st, evs) deck =
        ((mcIteration st deck).1, evs ++ [mcDealtView st.thisHands st.thisBoard deck]) := rfl
    rw [List.foldl_cons, hstep]
    obtain ⟨h1, h2, h3⟩ := ih (mcIteration st deck).1
      (evs ++ [mcDealtView st.thisHands st.thisBoard deck])
    refine ⟨by rw [h1, mcIteration_fst_thisHands], by rw [h2, mcIteration_fst_thisBoard], ?_⟩
    rw [h3, mcIteration_fst_thisHands, mcIteration_fst_thisBoard]
    simp

theorem except_bind_ok {α β : Type} (a : α) (f : α → Except String β) :
    (Except.ok a >>= f) = f a := rfl

theorem generateCombinations_length (cards : List Card) (k : ℕ) :
    ∀ combo ∈ generateCombinations cards k, combo.length = k := by
  induction cards generalizing k with
  | nil =>
    intro combo h
    match k with
    | 0 => simp [generateCombinations] at h; simp [h]
    | _ + 1 => simp [generateCombinations] at h
  | cons first rest ih =>
    intro combo h
    match k with
    | 0 => simp [generateCombinations] at h; simp [h]
    | n + 1 =>
      rw [generateCombinations] at h
      split at h
      · simp at h
      · rcases List.mem_append.mp h with h1 | h2
        · obtain ⟨c, hc, rfl⟩ := List.mem_map.mp h1
          simp [ih n c hc]
        · exact ih (n + 1) combo h2

theorem evaluateSingleHand_ok_of_length {cards : List Card} (h : cards.length = 5) :
    ∃ e, evaluateSingleHand cards = .ok e := by
  unfold evaluateSingleHand
  rw [if_neg (by omega)]
  exact ⟨_, rfl⟩

theorem holdemFold_ok (combos : List (List Card)) :
    ∀ best : EvaluatedHand, (∀ c ∈ combos, c.length = 5) →
      ∃ e, combos.foldlM
        (fun bestHand combo => do
          let evaluated ← evaluateSingleHand combo
          pure (if evaluated.value > bestHand.value then evaluated else bestHand))
        best = .ok e := by
  induction combos with
  | nil => intro best _; exact ⟨best, rfl⟩
  | cons c cs ih =>
    intro best hall
    obtain ⟨e, he⟩ := evaluateSingleHand_ok_of_length (hall c (by simp))
    rw [List.foldlM_cons]
    rw [show ((do
      let evaluated ← evaluateSingleHand c
      pure (if evaluated.value > best.value then evaluated else best)) :
        Except String EvaluatedHand) =
      .ok (if e.value > best.value then e else best) by rw [he]; rfl]
    rw [except_bind_ok]
    exact ih _ fun x hx => hall x (by simp [hx])

theorem bumpWins_length : ∀ (ts : List PlayerTally) (i : ℕ),
    (bumpWins ts i).length = ts.length := by
  intro ts
  induction ts with
  | nil => intro i; rfl
  | cons t rest ih =>
    intro i
    match i with
    | 0 => rfl
    | j + 1 => simp [bumpWins, ih j]

theorem bumpTies_length : ∀ (ts : List PlayerTally) (i : ℕ),
    (bumpTies ts i).length = ts.length := by
  intro ts
  induction ts with
  | nil => intro i; rfl
  | cons t rest ih =>
    intro i
    match i with
    | 0 => rfl
    | j + 1 => simp [bumpTies, ih j]

theorem tallySum_bumpWins : ∀ (ts : List PlayerTally) (i : ℕ), i < ts.length →
    tallySum (bumpWins ts i) = tallySum ts + 1 := by
  intro ts
  induction ts with
  | nil => intro i h; simp at h
  | cons t rest ih =>
    intro i h
    match i with
    | 0 => simp [bumpWins, tallySum]; ring
    | j + 1 =>
      have := ih j (by simpa using Nat.lt_of_succ_lt_succ h)
      simp only [bumpWins, tallySum, List.map_cons, List.sum_cons] at this ⊢
      rw [this]; ring

theorem tallySum_bumpTies : ∀ (ts : List PlayerTally) (i : ℕ), i < ts.length →
    tallySum (bumpTies ts i) = tallySum ts + 1 / 2 := by
  intro ts
  induction ts with
  | nil => intro i h; simp at h
  | cons t rest ih =>
    intro i h
    match i with
    | 0 => simp [bumpTies, tallySum]; ring
    | j + 1 =>
      have := ih j (by simpa using Nat.lt_of_succ_lt_succ h)
      simp only [bumpTies, tallySum, List.map_cons, List.sum_cons] at this ⊢
      rw [this]; ring

theorem tallySum_foldl_bumpTies : ∀ (winners : List ℕ) (ts : List PlayerTally),
    (∀ w ∈ winners, w < ts.length) →
    tallySum (winners.foldl bumpTies ts) =
      tallySum ts + (winners.length : ℚ) * (1 / 2) := by
  intro winners
  induction winners with
  | nil => intro ts _; simp
  | cons w rest ih =>
    intro ts hb
    rw [List.foldl_cons]
    rw [ih (bumpTies ts w) (fun x hx => by
      rw [bumpTies_length]; exact hb x (by simp [hx]))]
    rw [tallySum_bumpTies ts w (hb w (by simp))]
    simp only [List.length_cons]
    push_cast
    ring

theorem winnersLoop_bounds : ∀ (vs : List ℕ) (i : ℕ) (best : Int) (ws : List ℕ),
    (∀ w ∈ ws, w < i) → ∀ w ∈ winnersLoop vs i best ws, w < i + vs.length := by
  intro vs
  induction vs with
  | nil =>
    intro i best ws hws w hw
    rw [winnersLoop] at hw
    exact lt_of_lt_of_le (hws w hw) (by simp)
  | cons v rest ih =>
    intro i best ws hws w hw
    rw [winnersLoop] at hw
    split at hw
    · have h2 := ih (i + 1) (v : Int) [i] (by intro x hx; simp at hx; omega) w hw
      simp only [List.length_cons] at h2 ⊢
      omega
    · split at hw
      · have h2 := ih (i + 1) best (ws ++ [i]) (by
          intro x hx
          rcases List.mem_append.mp hx with hx | hx
          · exact Nat.lt_succ_of_lt (hws x hx)
          · simp at hx; omega) w hw
        simp only [List.length_cons] at h2 ⊢
        omega
      · have h2 := ih (i + 1) best ws (fun x hx => Nat.lt_succ_of_lt (hws x hx)) w hw
        simp only [List.length_cons] at h2 ⊢
        omega

theorem winnersOf_bounds (values : List ℕ) : ∀ w ∈ winnersOf values, w < values.length := by
  intro w hw
  have h := winnersLoop_bounds values 0 (-1) [] (by simp) w hw
  simpa using h

theorem winnersLoop_ne_nil : ∀ (vs : List ℕ) (i : ℕ) (best : Int) (ws : List ℕ),
    ws ≠ [] → winnersLoop vs i best ws ≠ [] := by
  intro vs
  induction vs with
  | nil => intro i best ws h; rw [winnersLoop]; exact h
  | cons v rest ih =>
    intro i best ws h
    rw [winnersLoop]
    split
    · exact ih _ _ _ (by simp)
    · split
      · exact ih _ _ _ (by simp)
      · exact ih _ _ _ h

theorem winnersOf_ne_nil : ∀ (values : List ℕ), values ≠ [] → winnersOf values ≠ [] := by
  intro values h
  match values with
  | v :: vs =>
    unfold winnersOf
    rw [winnersLoop]
    rw [if_pos (lt_of_lt_of_le (by norm_num) (Int.ofNat_nonneg v))]
    exact winnersLoop_ne_nil _ _ _ _ (by simp)

theorem updateTallies_length (ts : List PlayerTally) (values : List ℕ) :
    (updateTallies ts values).length = ts.length := by
  unfold updateTallies
  split
  · exact bumpWins_length ts _
  · generalize winnersOf values = ws
    induction ws generalizing ts with
    | nil => rfl
    | cons w rest ih => rw [List.foldl_cons, ih (bumpTies ts w), bumpTies_length]

theorem getD_zero_mem : ∀ (l : List ℕ), l ≠ [] → l.getD 0 0 ∈ l := by
  intro l h
  match l with
  | x :: xs => simp

theorem tallySum_update (ts : List PlayerTally) (values : List ℕ)
    (hlen : values.length = ts.length) (hne : values ≠ [])
    (hw : (winnersOf values).length ≤ 2) :
    tallySum (updateTallies ts values) = tallySum ts + 1 := by
  have hb := winnersOf_bounds values
  have hnn := winnersOf_ne_nil values hne
  unfold updateTallies
  split
  · next h1 =>
    exact tallySum_bumpWins ts _ (hlen ▸ hb _ (getD_zero_mem _ hnn))
  · next h1 =>
    rw [tallySum_foldl_bumpTies _ ts (fun w hw' => hlen ▸ hb w hw')]
    have h2 : (winnersOf values).length = 2 := by
      simp only [beq_iff_eq] at h1
      have h3 := List.length_pos.mpr hnn
      omega
    rw [h2]
    push_cast
    ring

theorem tallySum_foldl_scenarios (scenarios : List (List ℕ)) :
    ∀ ts : List PlayerTally, ts ≠ [] →
      (∀ s ∈ scenarios, s.length = ts.length) →
      (∀ s ∈ scenarios, (winnersOf s).length ≤ 2) →
      tallySum (scenarios.foldl updateTallies ts) =
        tallySum ts + (scenarios.length : ℚ) := by
  induction scenarios with
  | nil => intro ts _ _ _; simp
  | cons s rest ih =>
    intro ts h0 hlen hw
    rw [List.foldl_cons]
    have hsne : s ≠ [] := by
      intro hcon
      have := hlen s (by simp)
      rw [hcon] at this
      simp at this
      exact h0 (List.length_eq_zero.mp this.symm)
    have hupd := tallySum_update ts s (hlen s (by simp)) hsne (hw s (by simp))
    rw [ih (updateTallies ts s)
      (by
        intro hcon
        have := updateTallies_length ts s
        rw [hcon] at this
        exact h0 (List.length_eq_zero.mp this.symm))
      (fun x hx => by rw [updateTallies_length]; exact hlen x (by simp [hx]))
      (fun x hx => hw x (by simp [hx]))]
    rw [hupd]
    simp only [List.length_cons]
    push_cast
    ring

theorem sum_map_div (l : List PlayerTally) (T : ℚ) :
    (l.map fun t => ((t.winsCount : ℚ) + (t.tiesCount : ℚ) / 2) / T).sum =
      (l.map fun t => (t.winsCount : ℚ) + (t.tiesCount : ℚ) / 2).sum / T := by
  induction l with
  | nil => simp
  | cons t rest ih =>
    rw [List.map_cons, List.sum_cons, List.map_cons, List.sum_cons, ih, add_div]
    ring

theorem equitiesOf_sum (ts : List PlayerTally) (totalHands : ℕ) :
    (equitiesOf ts totalHands).sum = tallySum ts / (totalHands : ℚ) := by
  unfold equitiesOf tallySum
  exact sum_map_div ts (totalHands : ℚ)

theorem tallySum_replicate (n : ℕ) : tallySum (List.replicate n ⟨0, 0⟩) = 0 := by
  unfold tallySum
  induction n with
  | zero => simp
  | succ m ih =>
    rw [List.replicate_succ, List.map_cons, List.sum_cons, ih]
    simp

theorem except_bind_error {α β : Type} (e : String) (f : α → Except String β) :
    ((Except.error e : Except String α) >>= f) = Except.error e := rfl

theorem isCardInArray_iff_mem (card : Card) (cards : List Card) :
    isCardInArray card cards = true ↔ card ∈ cards := by
  unfold isCardInArray
  simp only [List.any_eq_true, Bool.and_eq_true, beq_iff_eq]
  constructor
  · rintro ⟨d, hd, h1, h2⟩
    have hdc : d = card := by cases d; cases card; simp_all
    exact hdc ▸ hd
  · intro h
    exact ⟨card, h, rfl, rfl⟩

theorem validateBoardLoop_ok (hands : List (List Card)) (deadCards : List Card) :
    ∀ (bs seen out : List Card),
      validateBoardLoop hands deadCards bs seen = .ok out →
      out = seen ++ bs ∧ ∀ c ∈ bs, c ∉ deadCards ∧ ∀ h ∈ hands, c ∉ h := by
  intro bs
  induction bs with
  | nil =>
    intro seen out H
    simp only [validateBoardLoop, Except.ok.injEq] at H
    exact ⟨by rw [← H]; simp, by simp⟩
  | cons b rest ih =>
    intro seen out H
    simp only [validateBoardLoop] at H
    split at H
    · exact absurd H (by simp)
    next h1 =>
      split at H
      · exact absurd H (by simp)
      next h2 =>
        split at H
        · exact absurd H (by simp)
        next h3 =>
          obtain ⟨hout, hrest⟩ := ih (seen ++ [b]) out H
          constructor
          · rw [hout]; simp
          · intro c hc
            rcases List.mem_cons.mp hc with rfl | hc2
            · refine ⟨fun hmem => h1 ((isCardInArray_iff_mem c deadCards).mpr hmem), ?_⟩
              intro h hh hcin
              exact h2 (List.any_eq_true.mpr ⟨h, hh, (isCardInArray_iff_mem c h).mpr hcin⟩)
            · exact hrest c hc2

theorem validateDeadLoop_ok (hands : List (List Card)) :
    ∀ (ds seen out : List Card),
      validateDeadLoop hands ds seen = .ok out →
      out = seen ++ ds ∧ ∀ c ∈ ds, ∀ h ∈ hands, c ∉ h := by
  intro ds
  induction ds with
  | nil =>
    intro seen out H
    simp only [validateDeadLoop, Except.ok.injEq] at H
    exact ⟨by rw [← H]; simp, by simp⟩
  | cons d rest ih =>
    intro seen out H
    simp only [validateDeadLoop] at H
    split at H
    · exact absurd H (by simp)
    next h1 =>
      split at H
      · exact absurd H (by simp)
      next h2 =>
        obtain ⟨hout, hrest⟩ := ih (seen ++ [d]) out H
        constructor
        · rw [hout]; simp
        · intro c hc
          rcases List.mem_cons.mp hc with rfl | hc2
          · intro h hh hcin
            exact h1 (List.any_eq_true.mpr ⟨h, hh, (isCardInArray_iff_mem c h).mpr hcin⟩)
          · exact hrest c hc2

theorem validateHandCardsLoop_ok :
    ∀ (cs seen out : List Card),
      validateHandCardsLoop cs seen = .ok out →
      out = seen ++ cs ∧ ∀ c ∈ cs, c ∉ seen := by
  intro cs
  induction cs with
  | nil =>
    intro seen out H
    simp only [validateHandCardsLoop, Except.ok.injEq] at H
    exact ⟨by rw [← H]; simp, by simp⟩
  | cons b rest ih =>
    intro seen out H
    simp only [validateHandCardsLoop] at H
    split at H
    · exact absurd H (by simp)
    next h1 =>
      obtain ⟨hout, hrest⟩ := ih (seen ++ [b]) out H
      constructor
      · rw [hout]; simp
      · intro c hc
        rcases List.mem_cons.mp hc with rfl | hc2
        · exact fun hmem => h1 ((isCardInArray_iff_mem c seen).mpr hmem)
        · exact fun hmem =>
            hrest c hc2 (List.mem_append.mpr (Or.inl hmem))

theorem validateHandsLoop_ok_not_in_seen :
    ∀ (hs : List (List Card)) (seen out : List Card),
      validateHandsLoop hs seen = .ok out →
      ∀ h ∈ hs, ∀ c ∈ h, c ∉ seen := by
  intro hs
  induction hs with
  | nil => intro seen out H h hh; simp at hh
  | cons hd rest ih =>
    intro seen out H h hh c hc
    simp only [validateHandsLoop] at H
    cases hcl : validateHandCardsLoop hd seen with
    | error e =>
      rw [hcl, except_bind_error] at H
      exact absurd H (by simp)
    | ok s1 =>
      rw [hcl, except_bind_ok] at H
      obtain ⟨hs1, hnotin⟩ := validateHandCardsLoop_ok hd seen s1 hcl
      rcases List.mem_cons.mp hh with rfl | hh2
      · exact hnotin c hc
      · intro hcseen
        have hni := ih s1 out H h hh2 c hc
        rw [hs1] at hni
        exact hni (List.mem_append.mpr (Or.inl hcseen))

theorem validateHandsLoop_ok_pairwise :
    ∀ (hs : List (List Card)) (seen out : List Card),
      validateHandsLoop hs seen = .ok out →
      List.Pairwise (fun h1 h2 => ∀ c ∈ h2, c ∉ h1) hs := by
  intro hs
  induction hs with
  | nil => intro _ _ _; exact List.Pairwise.nil
  | cons hd rest ih =>
    intro seen out H
    simp only [validateHandsLoop] at H
    cases hcl : validateHandCardsLoop hd seen with
    | error e =>
      rw [hcl, except_bind_error] at H
      exact absurd H (by simp)
    | ok s1 =>
      rw [hcl, except_bind_ok] at H
      obtain ⟨hs1, _⟩ := validateHandCardsLoop_ok hd seen s1 hcl
      refine List.Pairwise.cons ?_ (ih s1 out H)
      intro h' hh' c hc hchd
      have hni := validateHandsLoop_ok_not_in_seen rest s1 out H h' hh' c hc
      rw [hs1] at hni
      exact hni (List.mem_append.mpr (Or.inr hchd))

theorem validateBoardLoop_error (hands : List (List Card)) (deadCards : List Card) :
    ∀ (bs seen : List Card) (s : String),
      validateBoardLoop hands deadCards bs seen = .error s →
      ∃ c, compositionMsg c s ∧
        2 ≤ (seen ++ bs).count c + deadCards.count c + hands.flatten.count c := by
  intro bs
  induction bs with
  | nil =>
    intro seen s H
    simp only [validateBoardLoop] at H
    exact absurd H (by simp)
  | cons b rest ih =>
    intro seen s H
    simp only [validateBoardLoop] at H
    split at H
    next h1 =>
      simp only [Except.error.injEq] at H
      refine ⟨b, Or.inl H.symm, ?_⟩
      have hd1 : 0 < deadCards.count b :=
        List.count_pos_iff.mpr ((isCardInArray_iff_mem b deadCards).mp h1)
      have hb1 : (seen ++ b :: rest).count b = seen.count b + (rest.count b + 1) := by
        rw [List.count_append, List.count_cons_self]
      omega
    next h1 =>
      split at H
      next h2 =>
        simp only [Except.error.injEq] at H
        refine ⟨b, Or.inr (Or.inl H.symm), ?_⟩
        obtain ⟨hh, hhm, hin⟩ := List.any_eq_true.mp h2
        have hf1 : 0 < hands.flatten.count b :=
          List.count_pos_iff.mpr
            (List.mem_flatten.mpr ⟨hh, hhm, (isCardInArray_iff_mem b hh).mp hin⟩)
        have hb1 : (seen ++ b :: rest).count b = seen.count b + (rest.count b + 1) := by
          rw [List.count_append, List.count_cons_self]
        omega
      next h2 =>
        split at H
        next h3 =>
          simp only [Except.error.injEq] at H
          refine ⟨b, Or.inr (Or.inr (Or.inl H.symm)), ?_⟩
          have hs1 : 0 < seen.count b :=
            List.count_pos_iff.mpr ((isCardInArray_iff_mem b seen).mp h3)
          have hb1 : (seen ++ b :: rest).count b = seen.count b + (rest.count b + 1) := by
            rw [List.count_append, List.count_cons_self]
          omega
        next h3 =>
          obtain ⟨c, hmsg, hcount⟩ := ih (seen ++ [b]) s H
          refine ⟨c, hmsg, ?_⟩
          rw [List.append_assoc] at hcount
          exact hcount

theorem validateDeadLoop_error (hands : List (List Card)) :
    ∀ (ds seen : List Card) (s : String),
      validateDeadLoop hands ds seen = .error s →
      ∃ c, compositionMsg c s ∧
        2 ≤ (seen ++ ds).count c + hands.flatten.count c := by
  intro ds
  induction ds with
  | nil =>
    intro seen s H
    simp only [validateDeadLoop] at H
    exact absurd H (by simp)
  | cons d rest ih =>
    intro seen s H
    simp only [validateDeadLoop] at H
    split at H
    next h1 =>
      simp only [Except.error.injEq] at H
      refine ⟨d, Or.inr (Or.inr (Or.inr (Or.inl H.symm))), ?_⟩
      obtain ⟨hh, hhm, hin⟩ := List.any_eq_true.mp h1
      have hf1 : 0 < hands.flatten.count d :=
        List.count_pos_iff.mpr
          (List.mem_flatten.mpr ⟨hh, hhm, (isCardInArray_iff_mem d hh).mp hin⟩)
      have hb1 : (seen ++ d :: rest).count d = seen.count d + (rest.count d + 1) := by
        rw [List.count_append, List.count_cons_self]
      omega
    next h1 =>
      split at H
      next h2 =>
        simp only [Except.error.injEq] at H
        refine ⟨d, Or.inr (Or.inr (Or.inr (Or.inr (Or.inl H.symm)))), ?_⟩
        have hs1 : 0 < seen.count d :=
          List.count_pos_iff.mpr ((isCardInArray_iff_mem d seen).mp h2)
        have hb1 : (seen ++ d :: rest).count d = seen.count d + (rest.count d + 1) := by
          rw [List.count_append, List.count_cons_self]
        omega
      next h2 =>
        obtain ⟨c, hmsg, hcount⟩ := ih (seen ++ [d]) s H
        refine ⟨c, hmsg, ?_⟩
        rw [List.append_assoc] at hcount
        exact hcount

theorem validateHandCardsLoop_error :
    ∀ (cs seen : List Card) (s : String),
      validateHandCardsLoop cs seen = .error s →
      ∃ c, compositionMsg c s ∧ 2 ≤ (seen ++ cs).count c := by
  intro cs
  induction cs with
  | nil =>
    intro seen s H
    simp only [validateHandCardsLoop] at H
    exact absurd H (by simp)
  | cons b rest ih =>
    intro seen s H
    simp only [validateHandCardsLoop] at H
    split at H
    next h1 =>
      simp only [Except.error.injEq] at H
      refine ⟨b, Or.inr (Or.inr (Or.inr (Or.inr (Or.inr H.symm)))), ?_⟩
      have hs1 : 0 < seen.count b :=
        List.count_pos_iff.mpr ((isCardInArray_iff_mem b seen).mp h1)
      have hb1 : (seen ++ b :: rest).count b = seen.count b + (rest.count b + 1) := by
        rw [List.count_append, List.count_cons_self]
      omega
    next h1 =>
      obtain ⟨c, hmsg, hcount⟩ := ih (seen ++ [b]) s H
      refine ⟨c, hmsg, ?_⟩
      rw [List.append_assoc] at hcount
      exact hcount

theorem validateHandsLoop_error :
    ∀ (hs : List (List Card)) (seen : List Card) (s : String),
      validateHandsLoop hs seen = .error s →
      ∃ c, compositionMsg c s ∧ 2 ≤ (seen ++ hs.flatten).count c := by
  intro hs
  induction hs with
  | nil =>
    intro seen s H
    simp only [validateHandsLoop] at H
    exact absurd H (by simp)
  | cons hd rest ih =>
    intro seen s H
    simp only [validateHandsLoop] at H
    cases hcl : validateHandCardsLoop hd seen with
    | error e =>
      rw [hcl, except_bind_error] at H
      simp only [Except.error.injEq] at H
      subst H
      obtain ⟨c, hmsg, hcount⟩ := validateHandCardsLoop_error hd seen e hcl
      refine ⟨c, hmsg, ?_⟩
      have hflat : (hd :: rest).flatten = hd ++ rest.flatten := rfl
      rw [hflat, ← List.append_assoc, List.count_append]
      rw [List.count_append] at hcount ⊢
      omega
    | ok s1 =>
      rw [hcl, except_bind_ok] at H
      obtain ⟨hs1, _⟩ := validateHandCardsLoop_ok hd seen s1 hcl
      subst hs1
      obtain ⟨c, hmsg, hcount⟩ := ih (seen ++ hd) s H
      refine ⟨c, hmsg, ?_⟩
      have hflat : (hd :: rest).flatten = hd ++ rest.flatten := rfl
      rw [hflat, ← List.append_assoc]
      exact hcount

theorem validateHands_ok_disjoint (hands : List (List Card)) (board deadCards : List Card)
    (H : validateHands hands board deadCards = .ok ()) :
    ¬ crossDup hands board deadCards := by
  unfold validateHands at H
  cases hb : validateBoardLoop hands deadCards board [] with
  | error e => rw [hb, except_bind_error] at H; exact absurd H (by simp)
  | ok s1 =>
    rw [hb, except_bind_ok] at H
    cases hd : validateDeadLoop hands deadCards s1 with
    | error e => rw [hd, except_bind_error] at H; exact absurd H (by simp)
    | ok s2 =>
      rw [hd, except_bind_ok] at H
      cases hh : validateHandsLoop hands s2 with
      | error e => rw [hh, except_bind_error] at H; exact absurd H (by simp)
      | ok s3 =>
        obtain ⟨_, hbfacts⟩ := validateBoardLoop_ok hands deadCards board [] s1 hb
        obtain ⟨_, hdfacts⟩ := validateDeadLoop_ok hands deadCards s1 s2 hd
        have hpw := validateHandsLoop_ok_pairwise hands s2 s3 hh
        rintro (⟨c, hcb, hcd⟩ | ⟨c, hcb, h, hhm, hch⟩ | ⟨c, hcd, h, hhm, hch⟩ |
          ⟨i, hi, j, hj, hij, c, hci, hcj⟩)
        · exact (hbfacts c hcb).1 hcd
        · exact (hbfacts c hcb).2 h hhm hch
        · exact hdfacts c hcd h hhm hch
        · simp only [List.mem_range] at hi hj
          have hget := List.pairwise_iff_getElem.mp hpw i j hi hj hij
          rw [List.getD_eq_getElem hands [] hi] at hci
          rw [List.getD_eq_getElem hands [] hj] at hcj
          exact hget c hcj hci

theorem validateHands_error_msg (hands : List (List Card)) (board deadCards : List Card)
    (s : String) (H : validateHands hands board deadCards = .error s) :
    ∃ c, compositionMsg c s ∧ 2 ≤ (board ++ deadCards ++ hands.flatten).count c := by
  unfold validateHands at H
  cases hb : validateBoardLoop hands deadCards board [] with
  | error e =>
    rw [hb, except_bind_error] at H
    simp only [Except.error.injEq] at H
    subst H
    obtain ⟨c, hmsg, hcount⟩ := validateBoardLoop_error hands deadCards board [] e hb
    refine ⟨c, hmsg, ?_⟩
    simp only [List.nil_append] at hcount
    rw [List.count_append, List.count_append]
    omega
  | ok s1 =>
    rw [hb, except_bind_ok] at H
    obtain ⟨hs1, _⟩ := validateBoardLoop_ok hands deadCards board [] s1 hb
    simp only [List.nil_append] at hs1
    cases hd : validateDeadLoop hands deadCards s1 with
    | error e =>
      rw [hd, except_bind_error] at H
      simp only [Except.error.injEq] at H
      subst H
      obtain ⟨c, hmsg, hcount⟩ := validateDeadLoop_error hands deadCards s1 e hd
      refine ⟨c, hmsg, ?_⟩
      rw [hs1, List.count_append] at hcount
      rw [List.count_append, List.count_append]
      omega
    | ok s2 =>
      rw [hd, except_bind_ok] at H
      obtain ⟨hs2, _⟩ := validateDeadLoop_ok hands deadCards s1 s2 hd
      cases hh : validateHandsLoop hands s2 with
      | error e =>
        rw [hh, except_bind_error] at H
        simp only [Except.error.injEq] at H
        subst H
        obtain ⟨c, hmsg, hcount⟩ := validateHandsLoop_error hands s2 e hh
        refine ⟨c, hmsg, ?_⟩
        rw [hs2, hs1, List.count_append, List.count_append] at hcount
        rw [List.count_append, List.count_append]
        omega
      | ok s3 =>
        rw [hh, except_bind_ok] at H
        exact absurd H (fun hcon => Except.noConfusion hcon)

/-! ### Claim theorems -/

/-- C1: the claim that a strictly higher category always yields a strictly
greater tie-break value FAILS on the code: the 5-card scorer gives the pair
hand 2s 2h 5c 4d 3s (category 1) value 514030202, but the high-card hand
Ah Kd Qc Js 9h (category 0) value 1413121109, so the lower-category hand
out-values the higher-category one — the `handRank * 10,000,000` base is
smaller than the `14 * 100^4` a single high kicker contributes. -/
theorem c1_category_dominance_fails :
    evaluateSingleHand
        [⟨.two, .spades⟩, ⟨.two, .hearts⟩, ⟨.five, .clubs⟩, ⟨.four, .diamonds⟩,
          ⟨.three, .spades⟩] =
      .ok ⟨PAIR, 514030202, "Pair of Twos"⟩ ∧
    evaluateSingleHand
        [⟨.ace, .hearts⟩, ⟨.king, .diamonds⟩, ⟨.queen, .clubs⟩, ⟨.jack, .spades⟩,
          ⟨.nine, .hearts⟩] =
      .ok ⟨HIGH_CARD, 1413121109, "High Card, Ace"⟩ ∧
    HIGH_CARD < PAIR ∧ (514030202 : ℕ) < 1413121109 := by
  decide

/-- C2: the claim `value(wheel) < value(6-high straight)` FAILS on the
code: `calculateHandValue` re-sorts the wheel's value cards by raw rank,
putting the ace (14) in the top weight position, so the wheel A 2 3 4 5
scores 1445040302 while the 6-high straight 2 3 4 5 6 scores only
645040302. -/
theorem c2_wheel_outscores_six_high :
    evaluateSingleHand
        [⟨.ace, .spades⟩, ⟨.two, .hearts⟩, ⟨.three, .diamonds⟩, ⟨.four, .clubs⟩,
          ⟨.five, .spades⟩] =
      .ok ⟨STRAIGHT, 1445040302, "Straight, Ace high"⟩ ∧
    evaluateSingleHand
        [⟨.two, .hearts⟩, ⟨.three, .diamonds⟩, ⟨.four, .clubs⟩, ⟨.five, .spades⟩,
          ⟨.six, .hearts⟩] =
      .ok ⟨STRAIGHT, 645040302, "Straight, Six high"⟩ ∧
    (645040302 : ℕ) < 1445040302 := by
  decide

/-- C9: `evaluate` is NOT invariant to the board-card input order: with the
hole card Kh and board Kd 3c 3d 3h 3s the first maximal 5-card combination
is the full house K K 3 3 3, but with the board reordered to
3c 3d 3h 3s Kd the first maximal combination is the quads K 3 3 3 3 — both
score 1373030303 because the flawed value scheme lets a full house and a
four-of-a-kind collide, and the strict `>` keeps whichever comes first, so
the two orders return different categories and descriptions. -/
theorem c9_evaluate_not_order_invariant :
    List.Perm [cardKd, ⟨.three, .clubs⟩, ⟨.three, .diamonds⟩, ⟨.three, .hearts⟩,
        ⟨.three, .spades⟩]
      [⟨.three, .clubs⟩, ⟨.three, .diamonds⟩, ⟨.three, .hearts⟩, ⟨.three, .spades⟩,
        cardKd] ∧
    holdemEvaluate [cardKh]
        [cardKd, ⟨.three, .clubs⟩, ⟨.three, .diamonds⟩, ⟨.three, .hearts⟩,
          ⟨.three, .spades⟩] =
      .ok ⟨FULL_HOUSE, 1373030303, "Full House, Threes full of Kings"⟩ ∧
    holdemEvaluate [cardKh]
        [⟨.three, .clubs⟩, ⟨.three, .diamonds⟩, ⟨.three, .hearts⟩, ⟨.three, .spades⟩,
          cardKd] =
      .ok ⟨FOUR_OF_A_KIND, 1373030303, "Four of a Kind, Threes with King kicker"⟩ ∧
    (⟨FULL_HOUSE, 1373030303, "Full House, Threes full of Kings"⟩ : EvaluatedHand) ≠
      ⟨FOUR_OF_A_KIND, 1373030303, "Four of a Kind, Threes with King kicker"⟩ := by
  decide

/-- C3 counterexample: an exact calculation over three complete hands and a
complete board on which all three players tie (all hold the board's wheel
straight) produces equities 1/2, 1/2, 1/2 — summing to 3/2, which differs
from 1 by far more than the 1e-5 tolerance — because `(wins + ties/2)` is
only correct for two-way ties. -/
theorem c3_three_way_tie_breaks_sum :
    exhaustiveCompleteEquities tieHands tieBoard =
      .ok [(1 : ℚ) / 2, 1 / 2, 1 / 2] ∧
    ((1 : ℚ) / 2 + 1 / 2 + 1 / 2) - 1 > 1 / 100000 := by
  have hm : tieHands.mapM (fun h => holdemEvaluate h tieBoard) =
      Except.ok [⟨STRAIGHT, 1445040302, "Straight, Ace high"⟩,
        ⟨STRAIGHT, 1445040302, "Straight, Ace high"⟩,
        ⟨STRAIGHT, 1445040302, "Straight, Ace high"⟩] := by decide
  have ht : updateTallies (List.replicate tieHands.length ⟨0, 0⟩)
      (([(⟨STRAIGHT, 1445040302, "Straight, Ace high"⟩ : EvaluatedHand),
        ⟨STRAIGHT, 1445040302, "Straight, Ace high"⟩,
        ⟨STRAIGHT, 1445040302, "Straight, Ace high"⟩]).map (·.value)) =
      [⟨0, 1⟩, ⟨0, 1⟩, ⟨0, 1⟩] := by decide
  constructor
  · unfold exhaustiveCompleteEquities
    rw [hm]
    show Except.ok (equitiesOf (updateTallies _ _) 1) = _
    rw [ht]
    simp [equitiesOf]
  · norm_num

/-- C4: the exhaustive calculator does NOT restore the hand/board state
after a scenario: with two complete hands, the 3-card board Ts 9s 2h and
four available cards, the state evaluated for the second scenario carries
the first scenario's board completion 2d 3d in addition to its own 2d 4d
(the card 2d even appears twice), and the final board after all six
scenarios holds 15 cards instead of the original 3. -/
theorem c4_state_not_restored :
    ((exhaustiveEnumerate c4hands c4board c4dead).2.map (·.board)).getD 1 [] =
      c4board ++
        [⟨.two, .diamonds⟩, ⟨.three, .diamonds⟩, ⟨.two, .diamonds⟩, ⟨.four, .diamonds⟩] ∧
    ((exhaustiveEnumerate c4hands c4board c4dead).2.map (·.board)).getD 1 [] ≠
      c4board ++ [⟨.two, .diamonds⟩, ⟨.four, .diamonds⟩] ∧
    (exhaustiveEnumerate c4hands c4board c4dead).1.board.length = 15 ∧
    (exhaustiveEnumerate c4hands c4board c4dead).1.board ≠ c4board := by
  decide

/-- C6: a scenario the exhaustive calculator actually evaluates can assign
one physical card to two places: with hand 2 missing one card and the board
missing one card, the very first evaluated scenario completes both hand 2
and the board with the same card 2d — board completions are never checked
against hand completions. -/
theorem c6_duplicate_card_evaluated :
    ∃ st ∈ (exhaustiveEnumerate c6hands c6board c6dead).2,
      (⟨.two, .diamonds⟩ : Card) ∈ st.hands.getD 1 [] ∧
      (⟨.two, .diamonds⟩ : Card) ∈ st.board := by
  refine ⟨⟨[[cardAs, cardKs], [cardQh, ⟨.two, .diamonds⟩]],
    c6board ++ [⟨.two, .diamonds⟩]⟩, ?_, ?_, ?_⟩ <;> decide

/-- C5 counterexample: after a Monte Carlo batch, the caller-supplied Hand
and Board objects do NOT hold their original cards: the first iteration
mutates them in place (hand 2 gains 2d, the board gains 3d 4d) and the
"restore" step merely rebinds the calculator's own references to fresh
copies, leaving the caller's objects permanently completed. -/
theorem c5_caller_objects_not_restored :
    (mcRunBatch c5init c5decks).1.callerHands =
      [[cardAs, cardKs], [cardQh, ⟨.two, .diamonds⟩]] ∧
    (mcRunBatch c5init c5decks).1.callerHands ≠ c5init.callerHands ∧
    (mcRunBatch c5init c5decks).1.callerBoard ≠ c5init.callerBoard ∧
    (mcRunBatch c5init c5decks).1.thisHands = c5init.thisHands ∧
    (mcRunBatch c5init c5decks).1.thisBoard = c5init.thisBoard := by
  decide

/-- C3 amended: for an exact calculation whose scenarios (each given by the
players' evaluated hand values) never produce three or more simultaneous
winners, the final equities `(winsCount + tiesCount/2) / totalHands` sum to
exactly 1; a k-way tie scenario contributes k/2 instead of 1, so with three
or more tied winners the sum exceeds 1 (see the counterexample). -/
theorem c3_sum_one_when_ties_are_two_way (scenarios : List (List ℕ)) (n : ℕ)
    (hn : 0 < n) (hS : scenarios ≠ [])
    (hlen : ∀ s ∈ scenarios, s.length = n)
    (hw : ∀ s ∈ scenarios, (winnersOf s).length ≤ 2) :
    (equitiesOf (tallyScenarios scenarios n) scenarios.length).sum = 1 := by
  unfold tallyScenarios
  rw [equitiesOf_sum]
  rw [tallySum_foldl_scenarios scenarios (List.replicate n ⟨0, 0⟩)
    (by simp; omega)
    (fun s hs => by simpa using hlen s hs)
    hw]
  rw [tallySum_replicate, zero_add]
  rw [div_self]
  simpa using hS

/-- Witness for the amended C3 theorem: two players over two scenarios, one
outright win and one two-way tie, give equities summing to 1. -/
theorem c3_sum_one_witness :
    (0 < 2 ∧ ([[5, 3], [4, 4]] : List (List ℕ)) ≠ [] ∧
      (∀ s ∈ ([[5, 3], [4, 4]] : List (List ℕ)), s.length = 2) ∧
      (∀ s ∈ ([[5, 3], [4, 4]] : List (List ℕ)), (winnersOf s).length ≤ 2)) ∧
    (equitiesOf (tallyScenarios [[5, 3], [4, 4]] 2) 2).sum = 1 :=
  ⟨⟨by decide, by decide, by decide, by decide⟩,
   c3_sum_one_when_ties_are_two_way [[5, 3], [4, 4]] 2 (by decide) (by decide)
     (by decide) (by decide)⟩

/-- C5 amended: the Monte Carlo batch loop does restore the CALCULATOR's
hand/board state every iteration — after any batch `this.hands` and
`this.board` hold exactly the original incomplete card sequences, and every
iteration evaluates exactly those original sequences extended by its own
deal.  (The caller-supplied objects are not restored; see the
counterexample.) -/
theorem c5_calculator_state_restored (st : MCState) (decks : List (List Card)) :
    (mcRunBatch st decks).1.thisHands = st.thisHands ∧
    (mcRunBatch st decks).1.thisBoard = st.thisBoard ∧
    (mcRunBatch st decks).2 = decks.map (mcDealtView st.thisHands st.thisBoard) := by
  have h := mcFold_spec decks st []
  unfold mcRunBatch
  simpa using h

/-- C7: the exhaustive calculator fails with the combinatorial-overflow
error naming the estimated combination count exactly when the count exceeds
the effective `maxExhaustiveCombinations` ceiling (default 25000; the JS
`|| 25000` also restores the default when the option is 0) and
`forceExhaustive` is not set; with `forceExhaustive` set it proceeds
regardless of the count and the result carries `isExact = true`. -/
theorem c7_overflow_gate (totalCombinations : ℕ) (o : CalculationOptions) :
    (exhaustiveGateResult totalCombinations o = .error (overflowMsg totalCombinations) ↔
      o.forceExhaustive = false ∧ effectiveMaxCombinations o < totalCombinations) ∧
    (o.forceExhaustive = true →
      exhaustiveGateResult totalCombinations o = .ok true) := by
  constructor
  · constructor
    · intro h
      unfold exhaustiveGateResult at h
      split at h
      · exact absurd h (by simp)
      · next hc =>
        push_neg at hc
        exact ⟨Bool.not_eq_true _ ▸ hc.1, hc.2⟩
    · rintro ⟨h1, h2⟩
      unfold exhaustiveGateResult
      rw [if_neg]
      push_neg
      exact ⟨by simp [h1], by omega⟩
  · intro hf
    unfold exhaustiveGateResult
    rw [if_pos (Or.inl hf)]

/-- Witness for C7: 30000 estimated combinations exceed the default ceiling
and fail without force, and proceed with `isExact = true` under force. -/
theorem c7_overflow_gate_witness :
    exhaustiveGateResult 30000 ⟨false, 25000⟩ = .error (overflowMsg 30000) ∧
    exhaustiveGateResult 30000 ⟨true, 25000⟩ = .ok true :=
  ⟨(c7_overflow_gate 30000 ⟨false, 25000⟩).1.mpr (by decide),
   (c7_overflow_gate 30000 ⟨true, 25000⟩).2 rfl⟩

/-- C10: the single-hand evaluation path performs no cross-duplicate check:
for ANY hole and board card lists totalling at least 5 cards — including
ones sharing a physical card — the Hold'em evaluator returns an
`EvaluatedHand` rather than failing. -/
theorem c10_no_duplicate_check (holeCards boardCards : List Card)
    (h : 5 ≤ (holeCards ++ boardCards).length) :
    ∃ e, holdemEvaluate holeCards boardCards = .ok e := by
  unfold holdemEvaluate
  rw [if_neg (by omega)]
  exact holdemFold_ok _ _ (generateCombinations_length _ 5)

/-- Witness for C10: the hand As Ks evaluated against a board that also
contains As still returns an evaluated hand. -/
theorem c10_no_duplicate_check_witness :
    5 ≤ (([cardAs, cardKs] : List Card) ++
      [cardAs, ⟨.two, .hearts⟩, ⟨.three, .diamonds⟩]).length ∧
    ∃ e, holdemEvaluate [cardAs, cardKs]
      [cardAs, ⟨.two, .hearts⟩, ⟨.three, .diamonds⟩] = .ok e :=
  ⟨by decide, c10_no_duplicate_check _ _ (by decide)⟩

/-- C8: whenever the same card appears in more than one of {two different
hands, a hand and the board, a hand and the dead cards, the board and the
dead cards}, constructing a calculator fails with a composition error
naming an offending (duplicated) card.  The constructor runs
`validateHands` before any evaluation, and on failure no calculator value
is produced, so no state is mutated. -/
theorem c8_duplicate_fails_construction (hands : List (List Card))
    (board deadCards : List Card) (hdup : crossDup hands board deadCards) :
    ∃ s, mkEquityCalculator hands board deadCards = .error s ∧
      ∃ c, compositionMsg c s ∧
        2 ≤ (board ++ deadCards ++ hands.flatten).count c := by
  cases hv : validateHands hands board deadCards with
  | ok u =>
    cases u
    exact absurd hdup (validateHands_ok_disjoint hands board deadCards hv)
  | error s =>
    obtain ⟨c, hm, hc⟩ := validateHands_error_msg hands board deadCards s hv
    refine ⟨s, ?_, c, hm, hc⟩
    unfold mkEquityCalculator
    rw [hv]
    rfl

/-- Witness for C8: two hands both containing As fail construction with the
message naming As. -/
theorem c8_duplicate_fails_construction_witness :
    crossDup [[cardAs, cardKs], [cardAs, cardQh]] [] [] ∧
    ∃ s, mkEquityCalculator [[cardAs, cardKs], [cardAs, cardQh]] [] [] = .error s ∧
      ∃ c, compositionMsg c s ∧
        2 ≤ (([] : List Card) ++ [] ++
          ([[cardAs, cardKs], [cardAs, cardQh]] : List (List Card)).flatten).count c :=
  ⟨by unfold crossDup; decide, c8_duplicate_fails_construction _ _ _ (by unfold crossDup; decide)⟩

end PokerEquity
